import Mathlib

/-!
Verification of the neuron-descriptions repository.

The development shallowly embeds the parts of the code that the checked
properties are about:

* the sort-and-slice ablation sweep of `run_cnn_ablations.py`;
* the parse-depth computation of `run_cnn_ablations.py`;
* `ImageClassifier.predict` / `accuracy` / `accuracies` from
  `src/milan/classifiers.py`;
* `Featurizer.map` and `PretrainedPyramidFeaturizer.forward` from
  `lv/models/featurizers.py`;
* the training loop of `LanguageModel.fit` from `lv/models/lms.py`.

Tensors are modelled as lists over `ℚ`; batches as lists of samples.
-/

/-! ## Ablation sweep (run_cnn_ablations.py, lines 340-347) -/

/-- Ablation orders tried by the driver (the `ORDERS` tuple). -/
inductive AblationOrder where
  | increasing
  | decreasing
deriving DecidableEq, Repr

/-- Score lookup `scores[i]`; in the driver, `i` always lies in range. -/
def scoreAt (scores : List ℚ) (i : ℕ) : ℚ := scores.getD i 0

/-- Comparator used by
`sorted(range(len(captions)), key=lambda i: scores[i], reverse=order == ORDER_DECREASING)`. -/
def ablationLe (order : AblationOrder) (scores : List ℚ) (i j : ℕ) : Bool :=
  match order with
  | .increasing => decide (scoreAt scores i ≤ scoreAt scores j)
  | .decreasing => decide (scoreAt scores j ≤ scoreAt scores i)

/-- The list `indices` of the driver: all unit indices (one per caption), sorted
by score, increasing or decreasing according to `order`. -/
def ablationIndices (scores : List ℚ) (order : AblationOrder) : List ℕ :=
  (List.range scores.length).mergeSort (ablationLe order scores)

/-- Python `int()` applied to a rational value: truncation toward zero. -/
def pyInt (q : ℚ) : ℤ := if 0 ≤ q then ⌊q⌋ else ⌈q⌉

/-- The list `ablated = indices[:int(fraction * len(indices))]` of the driver.
Since `indices` is a permutation of `range(len(captions))`, its length is the
number of captions, i.e. `scores.length`.  (The slice is modelled for the
nonnegative bounds produced by the driver's sweep.) -/
def ablatedUnits (scores : List ℚ) (order : AblationOrder) (fraction : ℚ) : List ℕ :=
  (ablationIndices scores order).take (pyInt (fraction * scores.length)).toNat

theorem ablationLe_trans (order : AblationOrder) (scores : List ℚ) :
    ∀ i j k, ablationLe order scores i j → ablationLe order scores j k →
      ablationLe order scores i k := by
  intro i j k hij hjk
  cases order <;> simp only [ablationLe, decide_eq_true_eq] at * <;>
    first
    | exact le_trans hjk hij
    | exact le_trans hij hjk

theorem ablationLe_total (order : AblationOrder) (scores : List ℚ) :
    ∀ i j, (ablationLe order scores i j || ablationLe order scores j i) := by
  intro i j
  cases order <;> simp only [ablationLe, Bool.or_eq_true, decide_eq_true_eq] <;> exact le_total _ _

theorem ablationIndices_perm (scores : List ℚ) (order : AblationOrder) :
    (ablationIndices scores order).Perm (List.range scores.length) :=
  List.mergeSort_perm _ _

theorem ablationIndices_sorted (scores : List ℚ) (order : AblationOrder) :
    (ablationIndices scores order).Pairwise
      (fun i j => ablationLe order scores i j = true) :=
  List.sorted_mergeSort (ablationLe_trans order scores)
    (ablationLe_total order scores) _

/-- C1: for every experiment's scores, order, and ablation fraction in the
sweep, the ablated units are exactly the first `⌊fraction * N⌋` entries of the
list of all `N` unit indices sorted by score — decreasing for order
`decreasing`, increasing for order `increasing` — where `N` is the number of
captions (one score per unit). -/
theorem ablation_sort_and_slice (scores : List ℚ) (order : AblationOrder)
    (fraction : ℚ) (hf : 0 ≤ fraction) :
    (ablationIndices scores order).Perm (List.range scores.length)
    ∧ (ablationIndices scores order).Pairwise (fun i j =>
        match order with
        | .increasing => scoreAt scores i ≤ scoreAt scores j
        | .decreasing => scoreAt scores j ≤ scoreAt scores i)
    ∧ ablatedUnits scores order fraction
        = (ablationIndices scores order).take (⌊fraction * scores.length⌋).toNat := by
  refine ⟨ablationIndices_perm scores order, ?_, ?_⟩
  · refine (ablationIndices_sorted scores order).imp ?_
    intro i j hij
    cases order <;> simpa [ablationLe] using hij
  · have hq : (0:ℚ) ≤ fraction * scores.length :=
      mul_nonneg hf (Nat.cast_nonneg _)
    rw [ablatedUnits, pyInt, if_pos hq]

theorem ablation_sort_and_slice_witness :
    (0:ℚ) ≤ 2/3
    ∧ ((ablationIndices [5, 1, 3] .decreasing).Perm
          (List.range (List.length [(5:ℚ), 1, 3]))
      ∧ (ablationIndices [5, 1, 3] .decreasing).Pairwise (fun i j =>
          match AblationOrder.decreasing with
          | .increasing => scoreAt [5, 1, 3] i ≤ scoreAt [5, 1, 3] j
          | .decreasing => scoreAt [5, 1, 3] j ≤ scoreAt [5, 1, 3] i)
      ∧ ablatedUnits [5, 1, 3] .decreasing (2/3)
          = (ablationIndices [5, 1, 3] .decreasing).take
              (⌊(2/3 : ℚ) * (List.length [(5:ℚ), 1, 3])⌋).toNat) :=
  ⟨by norm_num, ablation_sort_and_slice [5, 1, 3] .decreasing (2/3) (by norm_num)⟩

/-- C2: within one experiment, trial, and order, the ablated sets are nested as
the fraction grows: for fractions `f ≤ g` the ablated list at `f` is a prefix
of the ablated list at `g`, so every unit ablated at `f` is also ablated at
`g`. -/
theorem ablation_nested (scores : List ℚ) (order : AblationOrder) (f g : ℚ)
    (hf : 0 ≤ f) (hfg : f ≤ g) :
    ablatedUnits scores order f <+: ablatedUnits scores order g
    ∧ ∀ u ∈ ablatedUnits scores order f, u ∈ ablatedUnits scores order g := by
  have hg : (0:ℚ) ≤ g := le_trans hf hfg
  have hqf : (0:ℚ) ≤ f * scores.length := mul_nonneg hf (Nat.cast_nonneg _)
  have hqg : (0:ℚ) ≤ g * scores.length := mul_nonneg hg (Nat.cast_nonneg _)
  have hmono : (pyInt (f * scores.length)).toNat
      ≤ (pyInt (g * scores.length)).toNat := by
    rw [pyInt, pyInt, if_pos hqf, if_pos hqg]
    exact Int.toNat_le_toNat (Int.floor_mono
      (mul_le_mul_of_nonneg_right hfg (Nat.cast_nonneg _)))
  have hpre : ablatedUnits scores order f <+: ablatedUnits scores order g := by
    rw [ablatedUnits, ablatedUnits]
    exact List.take_isPrefix_take.mpr (Or.inl hmono)
  exact ⟨hpre, fun u hu => hpre.subset hu⟩

theorem ablation_nested_witness :
    (0:ℚ) ≤ 1/3
    ∧ (1:ℚ)/3 ≤ 2/3
    ∧ (ablatedUnits [5, 1, 3] .increasing (1/3)
          <+: ablatedUnits [5, 1, 3] .increasing (2/3)
      ∧ ∀ u ∈ ablatedUnits [5, 1, 3] .increasing (1/3),
          u ∈ ablatedUnits [5, 1, 3] .increasing (2/3)) :=
  ⟨by norm_num, by norm_num,
    ablation_nested [5, 1, 3] .increasing (1/3) (2/3) (by norm_num) (by norm_num)⟩

/-! ## Parse depth (run_cnn_ablations.py, lines 299-320) -/

/-- Dependency-parse token: a node of the spaCy parse tree together with its
children (`token.children`).  The caption's ROOT token is the root node. -/
inductive DepToken where
  | node : List DepToken → DepToken

/-- Children of a token (`current.children` in the driver). -/
def DepToken.children : DepToken → List DepToken
  | .node cs => cs

/-- Number of tokens in a subtree; termination measure for the stack loop. -/
def DepToken.size : DepToken → ℕ
  | .node cs => 1 + (cs.attach.map fun c => DepToken.size c.1).sum
decreasing_by
  simp only [DepToken.node.sizeOf_spec]
  have := List.sizeOf_lt_of_mem c.2
  omega

theorem DepToken.size_node (cs : List DepToken) :
    DepToken.size (.node cs) = 1 + (cs.map DepToken.size).sum := by
  simp [DepToken.size, List.attach_map_coe]

/-- The driver's stack loop: `frontier` holds (token, depth) pairs, the loop
pops the last entry, pushes its children at depth+1, and tracks the largest
popped depth.  The list here is the Python stack reversed, so `pop()` takes
the head and appended children arrive reversed at the head. -/
def parseDepthLoop : List (DepToken × ℕ) → ℕ → ℕ
  | [], deepest => deepest
  | (t, d) :: rest, deepest =>
      parseDepthLoop (((t.children.map fun c => (c, d + 1)).reverse) ++ rest)
        (max deepest d)
termination_by frontier _ => (frontier.map fun p => p.1.size).sum
decreasing_by
  obtain ⟨cs⟩ := t
  simp only [List.map_append, List.map_reverse, List.sum_reverse, List.sum_append,
    List.map_map, List.map_cons, List.sum_cons, DepToken.children, DepToken.size_node]
  have h : (List.map ((fun p : DepToken × ℕ => p.1.size) ∘ fun c => (c, d + 1)) cs).sum
      = (cs.map DepToken.size).sum := rfl
  omega

/-- The score the driver assigns to a caption for the parse-depth experiment:
run the stack loop from the ROOT token at depth 0. -/
def parseDepth (t : DepToken) : ℕ := parseDepthLoop [(t, 0)] 0

/-- The quantity named by the spec: the maximum depth of the parse tree, i.e.
the number of edges on the longest path from the ROOT down to any descendant
(0 for a childless root). -/
def specParseDepth : DepToken → ℕ
  | .node cs => (cs.attach.map fun c => specParseDepth c.1 + 1).foldr max 0
decreasing_by
  simp only [DepToken.node.sizeOf_spec]
  have := List.sizeOf_lt_of_mem c.2
  omega

theorem specParseDepth_node (cs : List DepToken) :
    specParseDepth (.node cs)
      = (cs.map fun c => specParseDepth c + 1).foldr max 0 := by
  simp [specParseDepth, List.attach_map_coe]

/-- Largest depth reachable from any stack entry. -/
def frontierBound (fr : List (DepToken × ℕ)) : ℕ :=
  (fr.map fun p => p.2 + specParseDepth p.1).foldr max 0

theorem foldr_max_init (l : List ℕ) (a : ℕ) :
    l.foldr max a = max (l.foldr max 0) a := by
  induction l with
  | nil => simp
  | cons x l ih => simp only [List.foldr, ih]; omega

theorem frontierBound_append (l₁ l₂ : List (DepToken × ℕ)) :
    frontierBound (l₁ ++ l₂) = max (frontierBound l₁) (frontierBound l₂) := by
  rw [frontierBound, List.map_append, List.foldr_append, foldr_max_init]
  rfl

theorem frontierBound_reverse (l : List (DepToken × ℕ)) :
    frontierBound l.reverse = frontierBound l := by
  induction l with
  | nil => rfl
  | cons p l ih =>
      rw [List.reverse_cons, frontierBound_append, ih]
      simp only [frontierBound, List.map_cons, List.map_nil, List.foldr]
      omega

theorem frontierBound_cons (p : DepToken × ℕ) (l : List (DepToken × ℕ)) :
    frontierBound (p :: l) = max (p.2 + specParseDepth p.1) (frontierBound l) := rfl

theorem max_add_foldr (d : ℕ) (l : List ℕ) :
    max d ((l.map fun x => d + 1 + x).foldr max 0)
      = d + (l.map fun x => x + 1).foldr max 0 := by
  induction l with
  | nil => simp
  | cons x l ih => simp only [List.map_cons, List.foldr]; omega

theorem parseDepthLoop_eq (fr : List (DepToken × ℕ)) (deepest : ℕ) :
    parseDepthLoop fr deepest = max deepest (frontierBound fr) := by
  induction fr, deepest using parseDepthLoop.induct with
  | case1 deepest => simp [parseDepthLoop, frontierBound]
  | case2 t d rest deepest ih =>
      rw [parseDepthLoop, ih, frontierBound_append, frontierBound_reverse,
        frontierBound_cons]
      obtain ⟨cs⟩ := t
      have hkey : max d (frontierBound (cs.map fun c => (c, d + 1)))
          = d + specParseDepth (.node cs) := by
        rw [specParseDepth_node, frontierBound, List.map_map]
        have hc : ((fun p : DepToken × ℕ => p.2 + specParseDepth p.1) ∘
            fun c => (c, d + 1)) = fun c => d + 1 + specParseDepth c := rfl
        rw [hc]
        have hm := max_add_foldr d (cs.map specParseDepth)
        simp only [List.map_map] at hm
        have h1 : (List.map ((fun x => d + 1 + x) ∘ specParseDepth) cs)
            = (List.map (fun c => d + 1 + specParseDepth c) cs) := rfl
        have h2 : (List.map ((fun x => x + 1) ∘ specParseDepth) cs)
            = (List.map (fun c => specParseDepth c + 1) cs) := rfl
        rw [h1, h2] at hm
        exact hm
      simp only [DepToken.children]
      omega

/-- C7: for the parse-depth experiment, the score the driver's stack loop
assigns to a caption equals the maximum depth of its dependency parse tree —
with the ROOT at depth 0, the number of edges on the longest path from the
ROOT to any of its descendants, and 0 for a caption whose ROOT has no
children. -/
theorem parse_depth_is_tree_depth (t : DepToken) :
    parseDepth t = specParseDepth t ∧ parseDepth (.node []) = 0 := by
  constructor
  · rw [parseDepth, parseDepthLoop_eq, frontierBound_cons]
    simp [frontierBound]
  · rw [parseDepth, parseDepthLoop_eq, frontierBound_cons]
    simp [frontierBound, specParseDepth_node]

/-! ## ImageClassifier (src/milan/classifiers.py) -/

/-- A dataset sample: an image (`sample[image_index]`) together with its
target label (`sample[target_index]`). -/
structure Sample (I : Type) where
  image : I
  target : ℤ

/-- ImageClassifier.accuracy with precomputed predictions (lines 247-254):
`size = len(dataset)`, `targets` read off the dataset in order,
`correct = predictions.eq(targets).sum().item()`, result `correct / size`. -/
def ImageClassifier.accuracy {I : Type} (dataset : List (Sample I))
    (predictions : List ℤ) : ℚ :=
  (((predictions.zip (dataset.map Sample.target)).countP
      fun p => p.1 == p.2 : ℕ) : ℚ) / (dataset.length : ℚ)

theorem zip_countP_eq_range (as bs : List ℤ) (h : as.length = bs.length) :
    (as.zip bs).countP (fun p => p.1 == p.2)
      = (List.range as.length).countP (fun i => as.getD i 0 == bs.getD i 0) := by
  induction as generalizing bs with
  | nil => simp
  | cons a as ih =>
      cases bs with
      | nil => simp at h
      | cons b bs =>
          have h' : as.length = bs.length := by simpa using h
          simp only [List.zip_cons_cons, List.countP_cons, List.length_cons]
          rw [List.range_succ_eq_map, List.countP_cons, List.countP_map,
            ih bs h']
          have hfun : ((fun i => (a :: as).getD i 0 == (b :: bs).getD i 0)
              ∘ Nat.succ) = fun i => as.getD i 0 == bs.getD i 0 := by
            funext i
            simp [Function.comp, List.getD_cons_succ]
          rw [hfun]
          simp only [List.getD_cons_zero]

/-- C3: for a dataset of size `n ≥ 1` and a precomputed predictions list of
length `n`, `ImageClassifier.accuracy` returns the number of indices at which
the prediction equals the dataset's target, divided by `n`, a value in
`[0, 1]`. -/
theorem accuracy_counts_matches {I : Type} (dataset : List (Sample I))
    (predictions : List ℤ) (hn : 1 ≤ dataset.length)
    (hp : predictions.length = dataset.length) :
    ImageClassifier.accuracy dataset predictions
        = (((List.range dataset.length).countP
            (fun i => predictions.getD i 0
              == (dataset.map Sample.target).getD i 0) : ℕ) : ℚ)
          / (dataset.length : ℚ)
    ∧ 0 ≤ ImageClassifier.accuracy dataset predictions
    ∧ ImageClassifier.accuracy dataset predictions ≤ 1 := by
  have hlen : predictions.length = (dataset.map Sample.target).length := by
    simpa using hp
  have hcast : (0:ℚ) < (dataset.length : ℚ) := by
    exact_mod_cast Nat.lt_of_lt_of_le Nat.zero_lt_one hn
  refine ⟨?_, ?_, ?_⟩
  · rw [ImageClassifier.accuracy, zip_countP_eq_range _ _ hlen, hp]
  · exact div_nonneg (Nat.cast_nonneg _) (le_of_lt hcast)
  · rw [ImageClassifier.accuracy, div_le_one hcast]
    have hc : (predictions.zip (dataset.map Sample.target)).countP
        (fun p => p.1 == p.2) ≤ dataset.length := by
      calc (predictions.zip (dataset.map Sample.target)).countP
            (fun p => p.1 == p.2)
          ≤ (predictions.zip (dataset.map Sample.target)).length :=
            List.countP_le_length _
        _ ≤ dataset.length := by
            rw [List.length_zip, hp]
            simp
    exact_mod_cast hc

theorem accuracy_counts_matches_witness :
    1 ≤ List.length [Sample.mk () 1, Sample.mk () 0]
    ∧ List.length [(1:ℤ), 1] = List.length [Sample.mk () 1, Sample.mk () 0]
    ∧ (ImageClassifier.accuracy [Sample.mk () 1, Sample.mk () 0] [(1:ℤ), 1]
        = (((List.range (List.length [Sample.mk () 1, Sample.mk () 0])).countP
            (fun i => List.getD [(1:ℤ), 1] i 0
              == (List.map Sample.target
                    [Sample.mk () 1, Sample.mk () 0]).getD i 0) : ℕ) : ℚ)
          / ((List.length [Sample.mk () 1, Sample.mk () 0] : ℕ) : ℚ)
      ∧ 0 ≤ ImageClassifier.accuracy [Sample.mk () 1, Sample.mk () 0] [(1:ℤ), 1]
      ∧ ImageClassifier.accuracy [Sample.mk () 1, Sample.mk () 0] [(1:ℤ), 1] ≤ 1) :=
  ⟨by decide, by decide,
    accuracy_counts_matches [Sample.mk () 1, Sample.mk () 0] [(1:ℤ), 1]
      (by decide) (by decide)⟩

/-- The (prediction, target) pairs that `ImageClassifier.accuracies` iterates
over (line 301: `zip(predictions.tolist(), targets.tolist())`). -/
def predictionPairs {I : Type} (dataset : List (Sample I))
    (predictions : List ℤ) : List (ℤ × ℤ) :=
  predictions.zip (dataset.map Sample.target)

/-- Value of `total[t]` after the loop of `ImageClassifier.accuracies`. -/
def ImageClassifier.classTotal {I : Type} (dataset : List (Sample I))
    (predictions : List ℤ) (t : ℤ) : ℕ :=
  (predictionPairs dataset predictions).countP fun p => p.2 == t

/-- Value of `correct[t]` after the loop of `ImageClassifier.accuracies`
(`correct[target] += prediction == target`). -/
def ImageClassifier.classCorrect {I : Type} (dataset : List (Sample I))
    (predictions : List ℤ) (t : ℤ) : ℕ :=
  (predictionPairs dataset predictions).countP fun p => p.2 == t && p.1 == p.2

/-- Key set of the mapping returned by `ImageClassifier.accuracies`: the
targets occurring among the iterated pairs. -/
def ImageClassifier.accuracyKeys {I : Type} (dataset : List (Sample I))
    (predictions : List ℤ) : Finset ℤ :=
  ((predictionPairs dataset predictions).map Prod.snd).toFinset

/-- The per-class value `accuracies[t] = correct[t] / total[t]`. -/
def ImageClassifier.accuracies {I : Type} (dataset : List (Sample I))
    (predictions : List ℤ) (t : ℤ) : ℚ :=
  (ImageClassifier.classCorrect dataset predictions t : ℚ)
    / (ImageClassifier.classTotal dataset predictions t : ℚ)

theorem sum_countP_by_class (l : List (ℤ × ℤ)) (P : ℤ × ℤ → Bool)
    (S : Finset ℤ) (hS : ∀ p ∈ l, p.2 ∈ S) :
    ∑ t ∈ S, l.countP (fun p => p.2 == t && P p) = l.countP P := by
  induction l with
  | nil => simp
  | cons a l ih =>
      simp only [List.countP_cons]
      rw [Finset.sum_add_distrib, ih (fun p hp => hS p (List.mem_cons_of_mem a hp))]
      congr 1
      have ha : a.2 ∈ S := hS a (List.mem_cons_self a l)
      by_cases hPa : P a
      · have : ∀ t ∈ S, (if (a.2 == t && P a) = true then 1 else 0)
            = if a.2 = t then 1 else 0 := by
          intro t _
          simp [hPa, beq_iff_eq]
        rw [Finset.sum_congr rfl this, Finset.sum_ite_eq]
        simp [ha, hPa]
      · simp [hPa]

/-- C9: for the same dataset and precomputed predictions, the overall accuracy
equals the class-frequency-weighted average of the per-class accuracies, and
the key set of the per-class mapping is exactly the set of target labels
occurring in the dataset. -/
theorem accuracy_eq_weighted_accuracies {I : Type} (dataset : List (Sample I))
    (predictions : List ℤ) (hp : predictions.length = dataset.length) :
    ImageClassifier.accuracy dataset predictions
      = (∑ t ∈ ImageClassifier.accuracyKeys dataset predictions,
          ImageClassifier.accuracies dataset predictions t
            * (ImageClassifier.classTotal dataset predictions t : ℚ))
        / (dataset.length : ℚ)
    ∧ ImageClassifier.accuracyKeys dataset predictions
        = (dataset.map Sample.target).toFinset := by
  have hkeys : ImageClassifier.accuracyKeys dataset predictions
      = (dataset.map Sample.target).toFinset := by
    rw [ImageClassifier.accuracyKeys, predictionPairs, List.map_snd_zip]
    simpa using hp.ge
  refine ⟨?_, hkeys⟩
  have hterm : ∀ t ∈ ImageClassifier.accuracyKeys dataset predictions,
      ImageClassifier.accuracies dataset predictions t
        * (ImageClassifier.classTotal dataset predictions t : ℚ)
      = (ImageClassifier.classCorrect dataset predictions t : ℚ) := by
    intro t ht
    have htot : ImageClassifier.classTotal dataset predictions t ≠ 0 := by
      rw [ImageClassifier.accuracyKeys, List.mem_toFinset] at ht
      obtain ⟨p, hpmem, hpt⟩ := List.mem_map.mp ht
      rw [ImageClassifier.classTotal]
      have hpos : 0 < (predictionPairs dataset predictions).countP
          fun q => q.2 == t :=
        List.countP_pos_iff.mpr ⟨p, hpmem, by simp [hpt]⟩
      omega
    rw [ImageClassifier.accuracies, div_mul_cancel₀]
    exact_mod_cast htot
  rw [Finset.sum_congr rfl hterm]
  have hsum : ∑ t ∈ ImageClassifier.accuracyKeys dataset predictions,
      ImageClassifier.classCorrect dataset predictions t
      = (predictionPairs dataset predictions).countP fun p => p.1 == p.2 := by
    refine sum_countP_by_class _ _ _ ?_
    intro p hp
    rw [ImageClassifier.accuracyKeys, List.mem_toFinset]
    exact List.mem_map_of_mem Prod.snd hp
  rw [ImageClassifier.accuracy]
  congr 1
  rw [← Nat.cast_sum, hsum]
  rfl

theorem accuracy_eq_weighted_accuracies_witness :
    List.length [(0:ℤ), 1, 1] = List.length
        [Sample.mk () 0, Sample.mk () 0, Sample.mk () 1]
    ∧ (ImageClassifier.accuracy
          [Sample.mk () 0, Sample.mk () 0, Sample.mk () 1] [(0:ℤ), 1, 1]
        = (∑ t ∈ ImageClassifier.accuracyKeys
              [Sample.mk () 0, Sample.mk () 0, Sample.mk () 1] [(0:ℤ), 1, 1],
            ImageClassifier.accuracies
                [Sample.mk () 0, Sample.mk () 0, Sample.mk () 1] [(0:ℤ), 1, 1] t
              * (ImageClassifier.classTotal
                  [Sample.mk () 0, Sample.mk () 0, Sample.mk () 1]
                  [(0:ℤ), 1, 1] t : ℚ))
          / ((List.length [Sample.mk () 0, Sample.mk () 0, Sample.mk () 1] : ℕ) : ℚ)
      ∧ ImageClassifier.accuracyKeys
            [Sample.mk () 0, Sample.mk () 0, Sample.mk () 1] [(0:ℤ), 1, 1]
          = (List.map Sample.target
              [Sample.mk () 0, Sample.mk () 0, Sample.mk () 1]).toFinset) :=
  ⟨by decide,
    accuracy_eq_weighted_accuracies
      [Sample.mk () 0, Sample.mk () 0, Sample.mk () 1] [(0:ℤ), 1, 1] (by decide)⟩

/-- Batches produced by `torch.utils.data.DataLoader(dataset, batch_size=n)`
(line 197): consecutive chunks of `n` samples, the last possibly shorter.
The loader requires a positive batch size; `chunk 0` is a junk case. -/
def chunk {α : Type} : ℕ → List α → List (List α)
  | _, [] => []
  | 0, l => [l]
  | n + 1, a :: l =>
      ((a :: l).take (n + 1)) :: chunk (n + 1) ((a :: l).drop (n + 1))
termination_by _ l => l.length
decreasing_by
  simp only [List.length_drop, List.length_cons]
  omega

theorem chunk_map_flatten {α β : Type} (n : ℕ) (l : List α) (f : α → β) :
    ((chunk n l).map (fun b => b.map f)).flatten = l.map f := by
  induction n, l using chunk.induct with
  | case1 _ => simp [chunk]
  | case2 l h => cases l <;> simp [chunk]
  | case3 n a l ih =>
      rw [chunk]
      simp only [List.map_cons, List.flatten_cons, ih, ← List.map_append,
        List.take_append_drop]

theorem chunk_flatten {α : Type} (n : ℕ) (l : List α) :
    (chunk n l).flatten = l := by
  have h := chunk_map_flatten n l id
  simpa using h

/-- Modelled from the spec: `src.utils.ablations.ablated` (imported by
`src/milan/classifiers.py` but not among the sources) wraps the model so
that, per the spec, "ablating specified units (zeroing activations) during
forward passes".  The wrapped classifier is split at the instrumented layer:
`features` yields that layer's activations for an image, `head` the rest of
the network; ablated units are activation coordinates set to zero. -/
structure AblatableModel (I : Type) where
  features : I → List ℚ
  head : List ℚ → List ℚ

/-- Zero the activation coordinates named by `units`, keep all others. -/
def zeroUnitsFrom (units : List ℕ) : ℕ → List ℚ → List ℚ
  | _, [] => []
  | i, a :: acts => (if i ∈ units then 0 else a) :: zeroUnitsFrom units (i + 1) acts

/-- Activations with exactly the listed units zeroed. -/
def zeroUnits (units : List ℕ) (acts : List ℚ) : List ℚ :=
  zeroUnitsFrom units 0 acts

/-- A forward pass of the model with the given units ablated. -/
def AblatableModel.ablatedForward {I : Type} (m : AblatableModel I)
    (units : List ℕ) (x : I) : List ℚ :=
  m.head (zeroUnits units (m.features x))

/-- torch.argmax over the class scores: index of the first maximal entry. -/
def argmaxAux : List ℚ → ℕ → ℕ → ℚ → ℕ
  | [], _, bi, _ => bi
  | a :: rest, i, bi, bv =>
      if bv < a then argmaxAux rest (i + 1) i a else argmaxAux rest (i + 1) bi bv

/-- torch `outputs.argmax(dim=-1)` for one image's output vector. -/
def argmax (l : List ℚ) : ℕ :=
  match l with
  | [] => 0
  | a :: rest => argmaxAux rest 1 0 a

/-- ImageClassifier.predict (lines 196-211): iterate the DataLoader batches,
run the ablated model under no_grad, take the per-image argmax, and
concatenate the per-batch prediction tensors. -/
def ImageClassifier.predict {I : Type} (m : AblatableModel I)
    (dataset : List (Sample I)) (units : List ℕ) (batchSize : ℕ) : List ℕ :=
  ((chunk batchSize (dataset.map Sample.image)).map
    (fun batch => batch.map fun x => argmax (m.ablatedForward units x))).flatten

theorem zeroUnitsFrom_length (units : List ℕ) (i : ℕ) (acts : List ℚ) :
    (zeroUnitsFrom units i acts).length = acts.length := by
  induction acts generalizing i with
  | nil => rfl
  | cons a acts ih => simp [zeroUnitsFrom, ih]

theorem zeroUnitsFrom_getD (units : List ℕ) (i j : ℕ) (acts : List ℚ)
    (hj : j < acts.length) :
    (zeroUnitsFrom units i acts).getD j 0
      = if i + j ∈ units then 0 else acts.getD j 0 := by
  induction acts generalizing i j with
  | nil => simp at hj
  | cons a acts ih =>
      cases j with
      | zero => simp [zeroUnitsFrom]
      | succ j =>
          have hj' : j < acts.length := by simpa using hj
          simp only [zeroUnitsFrom, List.getD_cons_succ, ih (i + 1) j hj']
          have hadd : i + 1 + j = i + (j + 1) := by omega
          rw [hadd]

/-- C4: `ImageClassifier.predict` returns one predicted class per dataset
element, in dataset order — entry `i` is the argmax of the wrapped model's
output on image `i` — and when units are ablated, the activations of exactly
those units are zeroed in every forward pass: ablated coordinates read 0,
all other coordinates are unchanged. -/
theorem predict_argmax_per_image {I : Type} (m : AblatableModel I)
    (dataset : List (Sample I)) (units : List ℕ) (batchSize : ℕ)
    (_hb : 0 < batchSize) :
    (ImageClassifier.predict m dataset units batchSize).length = dataset.length
    ∧ ImageClassifier.predict m dataset units batchSize
        = dataset.map (fun s =>
            argmax (m.head (zeroUnits units (m.features s.image))))
    ∧ ∀ acts : List ℚ, (zeroUnits units acts).length = acts.length
        ∧ ∀ j < acts.length,
            (zeroUnits units acts).getD j 0
              = if j ∈ units then 0 else acts.getD j 0 := by
  have hmap : ImageClassifier.predict m dataset units batchSize
      = dataset.map (fun s =>
          argmax (m.head (zeroUnits units (m.features s.image)))) := by
    rw [ImageClassifier.predict, chunk_map_flatten, List.map_map]
    rfl
  refine ⟨?_, hmap, ?_⟩
  · rw [hmap, List.length_map]
  · intro acts
    refine ⟨zeroUnitsFrom_length units 0 acts, ?_⟩
    intro j hj
    have h := zeroUnitsFrom_getD units 0 j acts hj
    simpa using h

theorem predict_argmax_per_image_witness :
    0 < 2
    ∧ ((ImageClassifier.predict
          (AblatableModel.mk (fun i : ℤ => [(i:ℚ), 0]) (fun a => a))
          [Sample.mk (3:ℤ) 0, Sample.mk (-1) 1, Sample.mk 2 0] [1] 2).length
        = List.length [Sample.mk (3:ℤ) 0, Sample.mk (-1) 1, Sample.mk 2 0]
      ∧ ImageClassifier.predict
            (AblatableModel.mk (fun i : ℤ => [(i:ℚ), 0]) (fun a => a))
            [Sample.mk (3:ℤ) 0, Sample.mk (-1) 1, Sample.mk 2 0] [1] 2
          = List.map (fun s =>
              argmax ((fun a => a)
                (zeroUnits [1] ((fun i : ℤ => [(i:ℚ), 0]) s.image))))
              [Sample.mk (3:ℤ) 0, Sample.mk (-1) 1, Sample.mk 2 0]
      ∧ ∀ acts : List ℚ, (zeroUnits [1] acts).length = acts.length
          ∧ ∀ j < acts.length,
              (zeroUnits [1] acts).getD j 0
                = if j ∈ [1] then 0 else acts.getD j 0) :=
  ⟨by decide,
    predict_argmax_per_image
      (AblatableModel.mk (fun i : ℤ => [(i:ℚ), 0]) (fun a => a))
      [Sample.mk (3:ℤ) 0, Sample.mk (-1) 1, Sample.mk 2 0] [1] 2 (by decide)⟩

/-! ## PretrainedPyramidFeaturizer (lv/models/featurizers.py, lines 144-191)

Spatial grids are flattened to lists: a mask is a `List ℚ`, and the retained
activations of the instrumented classifier on one image are, per layer, a
list of channels, each channel a list over the layer's spatial positions.
`functional.interpolate(..., mode='bilinear', align_corners=False)` is kept
abstract as a function from a mask and a target spatial size to a mask. -/

/-- Per-layer step of the loop (lines 177-185): interpolate the mask to the
layer's spatial size, divide it by its spatial sum, and take the weighted
spatial sum of each activation channel (`fs.mul(ms).sum(dim=(-1,-2))`). -/
def maskedLayerFeatures (interp : List ℚ → ℕ → List ℚ) (mask : List ℚ)
    (acts : List (List ℚ)) : List ℚ :=
  let ms := interp mask (acts.headD []).length
  let ns := ms.map (· / ms.sum)
  acts.map fun fs => ((fs.zip ns).map fun p => p.1 * p.2).sum

/-- Feature row of a valid-mask image: per-layer pooled vectors concatenated
(`torch.cat(masked, dim=-1)`). -/
def validFeatures {I : Type} (net : I → List (List (List ℚ)))
    (interp : List ℚ → ℕ → List ℚ) (x : I) (mask : List ℚ) : List ℚ :=
  ((net x).map (maskedLayerFeatures interp mask)).flatten

/-- Number of valid (not entirely zero) masks in the batch: the number of
true entries of `valid = ~masks.eq(0).all(dim=-1).all(dim=-1)` (line 165). -/
def validCount (masks : List (List ℚ)) : ℕ :=
  masks.countP fun mk => !(mk.all (· == 0))

/-- Rows produced for a batch with at least two valid masks: the rows of
valid images carry the pooled features
(`result[indices] = torch.cat(masked, dim=-1)`, line 189), the others stay
at the zero initialisation. -/
def pooledRows {I : Type} (net : I → List (List (List ℚ)))
    (interp : List ℚ → ℕ → List ℚ) (featureSize : ℕ) (images : List I)
    (masks : List (List ℚ)) : List (List ℚ) :=
  (images.zip masks).map fun p =>
    if p.2.all (· == 0) then List.replicate featureSize 0
    else validFeatures net interp p.1 p.2

/-- PretrainedPyramidFeaturizer.forward: start from a zero result and return
it unchanged when no mask is valid (lines 166-167, without consulting the
network).  Otherwise `indices = valid.nonzero().squeeze()` (line 168): with
exactly one valid mask the squeeze of the (1, 1) index tensor yields a
0-dimensional index, `images[indices]` and `masks[indices]` lose the batch
dimension, and the bilinear interpolation and the network reject the 3-D
inputs — the call raises, modelled as `none`.  With two or more valid masks
the valid rows are filled with pooled features. -/
def PretrainedPyramidFeaturizer.forward {I : Type}
    (net : I → List (List (List ℚ))) (interp : List ℚ → ℕ → List ℚ)
    (featureSize : ℕ) (images : List I) (masks : List (List ℚ)) :
    Option (List (List ℚ)) :=
  if validCount masks = 0 then
    some (images.map fun _ => List.replicate featureSize 0)
  else if validCount masks = 1 then none
  else some (pooledRows net interp featureSize images masks)

/-- The row the spec describes for a valid-mask image: for each retained
layer, the weighted spatial sums, with weights the interpolated mask scaled
by its spatial sum; the per-layer vectors concatenated. -/
def specPooledRow (interp : List ℚ → ℕ → List ℚ) (mask : List ℚ)
    (layers : List (List (List ℚ))) : List ℚ :=
  (layers.map fun acts =>
    acts.map fun ch =>
      ∑ j ∈ Finset.range (acts.headD []).length,
        ch.getD j 0 * ((interp mask (acts.headD []).length).getD j 0
          / (interp mask (acts.headD []).length).sum)).flatten

theorem zip_mul_sum (u v : List ℚ) (h : u.length = v.length) :
    ((u.zip v).map fun p => p.1 * p.2).sum
      = ∑ j ∈ Finset.range u.length, u.getD j 0 * v.getD j 0 := by
  induction u generalizing v with
  | nil => simp
  | cons a u ih =>
      cases v with
      | nil => simp at h
      | cons b v =>
          have h' : u.length = v.length := by simpa using h
          simp only [List.zip_cons_cons, List.map_cons, List.sum_cons,
            List.length_cons, ih v h', Finset.sum_range_succ']
          simp only [List.getD_cons_succ, List.getD_cons_zero]
          exact add_comm _ _

theorem sum_map_div (l : List ℚ) (c : ℚ) : (l.map (· / c)).sum = l.sum / c := by
  induction l with
  | nil => simp
  | cons a l ih => simp [ih, add_div]

theorem maskedLayerFeatures_eq (interp : List ℚ → ℕ → List ℚ) (mask : List ℚ)
    (acts : List (List ℚ))
    (hinterp : ∀ m s, (interp m s).length = s)
    (hch : ∀ ch ∈ acts, ch.length = (acts.headD []).length) :
    maskedLayerFeatures interp mask acts
      = acts.map fun ch =>
          ∑ j ∈ Finset.range (acts.headD []).length,
            ch.getD j 0 * ((interp mask (acts.headD []).length).getD j 0
              / (interp mask (acts.headD []).length).sum) := by
  rw [maskedLayerFeatures]
  apply List.map_congr_left
  intro ch hmem
  have hms : (interp mask (acts.headD []).length).length
      = (acts.headD []).length := hinterp mask _
  have hc : ch.length = (acts.headD []).length := hch ch hmem
  have hzl : ch.length
      = ((interp mask (acts.headD []).length).map
          (· / (interp mask (acts.headD []).length).sum)).length := by
    rw [List.length_map, hms, hc]
  rw [zip_mul_sum ch _ hzl, hc]
  apply Finset.sum_congr rfl
  intro j hj
  rw [Finset.mem_range] at hj
  congr 1
  have hj1 : j < ((interp mask (acts.headD []).length).map
      (· / (interp mask (acts.headD []).length).sum)).length := by
    rw [List.length_map, hms]
    omega
  have hj2 : j < (interp mask (acts.headD []).length).length := by omega
  rw [List.getD_eq_getElem _ _ hj1, List.getElem_map,
    List.getD_eq_getElem _ _ hj2]

theorem validFeatures_length {I : Type} (net : I → List (List (List ℚ)))
    (interp : List ℚ → ℕ → List ℚ) (featureSize : ℕ) (x : I) (mk : List ℚ)
    (hsize : ((net x).map List.length).sum = featureSize) :
    (validFeatures net interp x mk).length = featureSize := by
  rw [validFeatures, List.length_flatten, List.map_map, ← hsize]
  congr 1
  apply List.map_congr_left
  intro acts _
  simp [maskedLayerFeatures]

theorem validFeatures_eq_specPooledRow {I : Type}
    (net : I → List (List (List ℚ))) (interp : List ℚ → ℕ → List ℚ)
    (x : I) (mk : List ℚ)
    (hinterp : ∀ m s, (interp m s).length = s)
    (hch : ∀ acts ∈ net x, ∀ ch ∈ acts, ch.length = (acts.headD []).length) :
    validFeatures net interp x mk = specPooledRow interp mk (net x) := by
  rw [validFeatures, specPooledRow]
  congr 1
  apply List.map_congr_left
  intro acts hacts
  exact maskedLayerFeatures_eq interp mk acts hinterp (hch acts hacts)

theorem pooledRows_length {I : Type} (net : I → List (List (List ℚ)))
    (interp : List ℚ → ℕ → List ℚ) (featureSize : ℕ) (images : List I)
    (masks : List (List ℚ)) (hlen : masks.length = images.length) :
    (pooledRows net interp featureSize images masks).length = images.length := by
  rw [pooledRows, List.length_map, List.length_zip, hlen]
  simp

theorem pooledRows_getD {I : Type} [Inhabited I]
    (net : I → List (List (List ℚ))) (interp : List ℚ → ℕ → List ℚ)
    (featureSize : ℕ) (images : List I) (masks : List (List ℚ))
    (hlen : masks.length = images.length) (i : ℕ) (hi : i < images.length) :
    (pooledRows net interp featureSize images masks).getD i []
      = if (masks.getD i []).all (· == 0)
        then List.replicate featureSize 0
        else validFeatures net interp (images.getD i default)
              (masks.getD i []) := by
  have hi2 : i < masks.length := by omega
  rw [List.getD_eq_getElem masks [] hi2, List.getD_eq_getElem images default hi]
  have hiz : i < (images.zip masks).length := by
    rw [List.length_zip, hlen]
    simp
    omega
  rw [pooledRows, List.getD_eq_getElem _ []
      (by rw [List.length_map]; exact hiz),
    List.getElem_map, List.getElem_zip]

/-- C5 (amended): in a batch with at least two not-entirely-zero masks, the
forward pass returns rows, and for every image whose mask is not entirely
zero the row is, per retained layer, the interpolated mask scaled by its
spatial sum (weights summing to one) applied as a weighted spatial sum of
each activation channel, the per-layer vectors concatenated; every row has
length `featureSize` (fixed by the config).  With exactly one valid mask the
source instead raises (see `pyramid_forward_single_valid_raises`). -/
theorem pyramid_forward_masked_pooling {I : Type} [Inhabited I]
    (net : I → List (List (List ℚ))) (interp : List ℚ → ℕ → List ℚ)
    (featureSize : ℕ) (images : List I) (masks : List (List ℚ))
    (hlen : masks.length = images.length)
    (hsize : ∀ x, ((net x).map List.length).sum = featureSize)
    (hinterp : ∀ m s, (interp m s).length = s)
    (hch : ∀ x, ∀ acts ∈ net x, ∀ ch ∈ acts,
        ch.length = (acts.headD []).length)
    (hnz : ∀ p ∈ images.zip masks, ∀ acts ∈ net p.1,
        (interp p.2 (acts.headD []).length).sum ≠ 0)
    (hv2 : 2 ≤ validCount masks) :
    ∃ rows, PretrainedPyramidFeaturizer.forward net interp featureSize images
          masks = some rows
      ∧ rows.length = images.length
      ∧ (∀ i, i < images.length → (rows.getD i []).length = featureSize)
      ∧ ∀ i, i < images.length →
          ¬ (masks.getD i []).all (· == 0) = true →
          rows.getD i []
            = specPooledRow interp (masks.getD i [])
                (net (images.getD i default))
          ∧ ∀ acts ∈ net (images.getD i default),
              ((interp (masks.getD i []) (acts.headD []).length).map
                (· / (interp (masks.getD i [])
                        (acts.headD []).length).sum)).sum = 1 := by
  refine ⟨pooledRows net interp featureSize images masks, ?_,
    pooledRows_length net interp featureSize images masks hlen, ?_, ?_⟩
  · rw [PretrainedPyramidFeaturizer.forward, if_neg (by omega),
      if_neg (by omega)]
  · intro i hi
    rw [pooledRows_getD net interp featureSize images masks hlen i hi]
    by_cases hz : (masks.getD i []).all (· == 0) = true
    · rw [if_pos hz, List.length_replicate]
    · rw [if_neg hz]
      exact validFeatures_length net interp featureSize _ _ (hsize _)
  · intro i hi hmask
    have hmem : (images.getD i default, masks.getD i []) ∈ images.zip masks := by
      have hiz : i < (images.zip masks).length := by
        rw [List.length_zip, hlen]
        simp
        omega
      have hm := List.getElem_mem hiz
      rw [List.getElem_zip] at hm
      rw [List.getD_eq_getElem images default hi,
        List.getD_eq_getElem masks [] (by omega)]
      exact hm
    constructor
    · rw [pooledRows_getD net interp featureSize images masks hlen i hi,
        if_neg hmask]
      exact validFeatures_eq_specPooledRow net interp _ _ hinterp (hch _)
    · intro acts hacts
      rw [sum_map_div, div_self]
      exact hnz _ hmem acts hacts

/-- Concrete single-layer network used to instantiate the featurizer
theorems: one layer, one channel, two spatial positions. -/
def witNet : Unit → List (List (List ℚ)) := fun _ => [[[2, 4]]]

/-- Concrete interpolation used to instantiate the featurizer theorems. -/
def witInterp : List ℚ → ℕ → List ℚ := fun _ s => List.replicate s 1

/-- C5 counterexample: the claim as stated fails on a batch with exactly one
not-entirely-zero mask — here a singleton batch whose mask is valid.  The
source computes `indices = valid.nonzero().squeeze()`, the squeeze of the
(1, 1) index tensor is 0-dimensional, `images[indices]` and `masks[indices]`
lose the batch dimension, and the bilinear interpolation and the network
reject the 3-D inputs: forward raises instead of returning the pooled
feature vector the claim asserts. -/
theorem pyramid_forward_single_valid_raises :
    PretrainedPyramidFeaturizer.forward witNet witInterp 1 [()]
      [[(3:ℚ), 0]] = none := rfl

theorem pyramid_forward_masked_pooling_witness :
    List.length [[(3:ℚ), 0], [1, 1]] = List.length [(), ()]
    ∧ (∀ x : Unit, ((witNet x).map List.length).sum = 1)
    ∧ (∀ (m : List ℚ) (s : ℕ), (witInterp m s).length = s)
    ∧ (∀ x : Unit, ∀ acts ∈ witNet x, ∀ ch ∈ acts,
        ch.length = (acts.headD []).length)
    ∧ (∀ p ∈ [(), ()].zip [[(3:ℚ), 0], [1, 1]], ∀ acts ∈ witNet p.1,
        (witInterp p.2 (acts.headD []).length).sum ≠ 0)
    ∧ 2 ≤ validCount [[(3:ℚ), 0], [1, 1]]
    ∧ (∃ rows, PretrainedPyramidFeaturizer.forward witNet witInterp 1
          [(), ()] [[(3:ℚ), 0], [1, 1]] = some rows
      ∧ rows.length = List.length [(), ()]
      ∧ (∀ i, i < List.length [(), ()] → (rows.getD i []).length = 1)
      ∧ ∀ i, i < List.length [(), ()] →
          ¬ (([[(3:ℚ), 0], [1, 1]]).getD i []).all (· == 0) = true →
          rows.getD i []
            = specPooledRow witInterp (([[(3:ℚ), 0], [1, 1]]).getD i [])
                (witNet ([(), ()].getD i default))
          ∧ ∀ acts ∈ witNet ([(), ()].getD i default),
              ((witInterp (([[(3:ℚ), 0], [1, 1]]).getD i [])
                  (acts.headD []).length).map
                (· / (witInterp (([[(3:ℚ), 0], [1, 1]]).getD i [])
                        (acts.headD []).length).sum)).sum = 1) := by
  have h1 : List.length [[(3:ℚ), 0], [1, 1]] = List.length [(), ()] := rfl
  have h2 : ∀ x : Unit, ((witNet x).map List.length).sum = 1 := fun _ => rfl
  have h3 : ∀ (m : List ℚ) (s : ℕ), (witInterp m s).length = s :=
    fun _ s => List.length_replicate s 1
  have h4 : ∀ x : Unit, ∀ acts ∈ witNet x, ∀ ch ∈ acts,
      ch.length = (acts.headD []).length := by
    intro x acts ha ch hc
    simp only [witNet, List.mem_singleton] at ha
    subst ha
    simp only [List.mem_singleton] at hc
    subst hc
    rfl
  have h5 : ∀ p ∈ [(), ()].zip [[(3:ℚ), 0], [1, 1]], ∀ acts ∈ witNet p.1,
      (witInterp p.2 (acts.headD []).length).sum ≠ 0 := by
    intro p _ acts ha
    simp only [witNet, List.mem_singleton] at ha
    subst ha
    norm_num [witInterp, List.sum_replicate]
  have h6 : 2 ≤ validCount [[(3:ℚ), 0], [1, 1]] := le_refl 2
  exact ⟨h1, h2, h3, h4, h5, h6,
    pyramid_forward_masked_pooling witNet witInterp 1 [(), ()]
      [[(3:ℚ), 0], [1, 1]] h1 h2 h3 h4 h5 h6⟩

/-- C8 counterexample: the claim's universal zero-filling fails on a batch
with exactly one valid mask.  Here image 0 has an entirely zero mask, but
the source raises (squeeze drops the batch dimension, the 3-D tensors are
rejected downstream) before the zero rows are ever returned, so the
all-zero-mask image does not receive an all-zero feature vector. -/
theorem pyramid_forward_zero_fill_skipped :
    PretrainedPyramidFeaturizer.forward witNet witInterp 1 [(), ()]
        [[(0:ℚ), 0], [3, 1]] = none
    ∧ (([[(0:ℚ), 0], [3, 1]]).getD 0 []).all (· == 0) = true :=
  ⟨rfl, rfl⟩

/-- C8 (amended): in every batch whose number of not-entirely-zero masks is
not exactly one, images whose mask is entirely zero are excluded from the
network pass and receive an all-zero feature row, so the normalization
divisor is only formed over valid masks; and a batch in which every mask is
all zeros returns the all-zeros result immediately, independently of the
network and of the interpolation.  With exactly one valid mask the source
raises before zero-filling (see `pyramid_forward_zero_fill_skipped`). -/
theorem pyramid_forward_zero_mask_guard {I : Type} [Inhabited I]
    (net : I → List (List (List ℚ))) (interp : List ℚ → ℕ → List ℚ)
    (featureSize : ℕ) (images : List I) (masks : List (List ℚ))
    (hlen : masks.length = images.length) :
    (validCount masks ≠ 1 →
        ∃ rows, PretrainedPyramidFeaturizer.forward net interp featureSize
              images masks = some rows
          ∧ ∀ i, i < images.length →
              (masks.getD i []).all (· == 0) = true →
              rows.getD i [] = List.replicate featureSize 0)
    ∧ ((∀ mk ∈ masks, mk.all (· == 0) = true) →
        PretrainedPyramidFeaturizer.forward net interp featureSize images
            masks
          = some (images.map (fun _ => List.replicate featureSize 0))
        ∧ ∀ (net' : I → List (List (List ℚ)))
            (interp' : List ℚ → ℕ → List ℚ),
            PretrainedPyramidFeaturizer.forward net interp featureSize
                images masks
              = PretrainedPyramidFeaturizer.forward net' interp' featureSize
                  images masks) := by
  constructor
  · intro hne
    by_cases h0 : validCount masks = 0
    · refine ⟨images.map (fun _ => List.replicate featureSize 0), ?_, ?_⟩
      · rw [PretrainedPyramidFeaturizer.forward, if_pos h0]
      · intro i hi _
        rw [List.getD_eq_getElem _ [] (by rw [List.length_map]; exact hi),
          List.getElem_map]
    · refine ⟨pooledRows net interp featureSize images masks, ?_, ?_⟩
      · rw [PretrainedPyramidFeaturizer.forward, if_neg h0, if_neg hne]
      · intro i hi hz
        rw [pooledRows_getD net interp featureSize images masks hlen i hi,
          if_pos hz]
  · intro hz
    have h0 : validCount masks = 0 := by
      rw [validCount, List.countP_eq_zero]
      intro mk hmk
      simp [hz mk hmk]
    have hF : PretrainedPyramidFeaturizer.forward net interp featureSize
        images masks
        = some (images.map (fun _ => List.replicate featureSize 0)) := by
      rw [PretrainedPyramidFeaturizer.forward, if_pos h0]
    refine ⟨hF, ?_⟩
    intro net' interp'
    rw [hF, PretrainedPyramidFeaturizer.forward, if_pos h0]

theorem pyramid_forward_zero_mask_guard_witness :
    List.length [[(0:ℚ), 0]] = List.length [()]
    ∧ ((validCount [[(0:ℚ), 0]] ≠ 1 →
          ∃ rows, PretrainedPyramidFeaturizer.forward witNet witInterp 1 [()]
                [[(0:ℚ), 0]] = some rows
            ∧ ∀ i, i < List.length [()] →
                (([[(0:ℚ), 0]]).getD i []).all (· == 0) = true →
                rows.getD i [] = List.replicate 1 0)
      ∧ ((∀ mk ∈ [[(0:ℚ), 0]], mk.all (· == 0) = true) →
          PretrainedPyramidFeaturizer.forward witNet witInterp 1 [()]
              [[(0:ℚ), 0]]
            = some ([()].map (fun _ => List.replicate 1 0))
          ∧ ∀ (net' : Unit → List (List (List ℚ)))
              (interp' : List ℚ → ℕ → List ℚ),
              PretrainedPyramidFeaturizer.forward witNet witInterp 1 [()]
                  [[(0:ℚ), 0]]
                = PretrainedPyramidFeaturizer.forward net' interp' 1 [()]
                    [[(0:ℚ), 0]])) :=
  ⟨rfl, pyramid_forward_zero_mask_guard witNet witInterp 1 [()]
    [[(0:ℚ), 0]] rfl⟩


/-! ## Featurizer.map (lv/models/featurizers.py, lines 25-84) -/

/-- A collated batch entry produced by the DataLoader: either a stacked
tensor or some non-tensor value (e.g. a list of strings). -/
inductive BatchEntry (T : Type) where
  | tensor : T → BatchEntry T
  | nonTensor

/-- Tensor test: `isinstance(entry, torch.Tensor)`. -/
def BatchEntry.isTensor {T : Type} : BatchEntry T → Bool
  | .tensor _ => true
  | .nonTensor => false

/-- Payload of a tensor entry (default value for the impossible case). -/
def BatchEntry.getD {T : Type} : BatchEntry T → T → T
  | .tensor t, _ => t
  | .nonTensor, d => d

/-- A dataset sample as seen by `Featurizer.map`: the value at
`image_index` and the value at `mask_index`. -/
structure MapSample (I M : Type) where
  image : BatchEntry I
  mask : BatchEntry M

/-- Default collation of one field over a batch: a stacked tensor exactly
when every sample's field is a tensor. -/
def collate {T : Type} : List (BatchEntry T) → Option (List T)
  | [] => some []
  | .tensor t :: rest => (collate rest).map (t :: ·)
  | .nonTensor :: _ => none

/-- The loop of `Featurizer.map`: for each batch check
`isinstance(images, torch.Tensor)` (raising ValueError otherwise), then the
same for masks, featurize the batch (one row per image, per the claim's
assumption on `forward`), and concatenate everything at the end. -/
def Featurizer.mapLoop {I M F : Type} (g : I → M → F) :
    List (List (MapSample I M)) → Except String (List F)
  | [] => .ok []
  | batch :: batches =>
      match collate (batch.map MapSample.image) with
      | none => .error "non-tensor images"
      | some imgs =>
          match collate (batch.map MapSample.mask) with
          | none => .error "non-tensor masks"
          | some msks =>
              match Featurizer.mapLoop g batches with
              | .error e => .error e
              | .ok rest => .ok ((imgs.zip msks).map (fun p => g p.1 p.2) ++ rest)

/-- Featurizer.map: featurize the dataset in DataLoader batches. -/
def Featurizer.map {I M F : Type} (g : I → M → F) (batchSize : ℕ)
    (samples : List (MapSample I M)) : Except String (List F) :=
  Featurizer.mapLoop g (chunk batchSize samples)

theorem collate_all_tensor {T : Type} [Inhabited T] (l : List (BatchEntry T))
    (h : ∀ e ∈ l, e.isTensor = true) :
    collate l = some (l.map (fun e => e.getD default)) := by
  induction l with
  | nil => rfl
  | cons e l ih =>
      cases e with
      | tensor t =>
          rw [collate, ih (fun e he => h e (List.mem_cons_of_mem _ he))]
          rfl
      | nonTensor =>
          have := h _ (List.mem_cons_self _ l)
          simp [BatchEntry.isTensor] at this

theorem collate_none_iff {T : Type} (l : List (BatchEntry T)) :
    collate l = none ↔ ∃ e ∈ l, e.isTensor = false := by
  induction l with
  | nil => simp [collate]
  | cons e l ih =>
      cases e with
      | tensor t =>
          rw [collate]
          simp only [Option.map_eq_none', ih]
          constructor
          · intro h
            obtain ⟨x, hx, hfx⟩ := h
            exact ⟨x, List.mem_cons_of_mem _ hx, hfx⟩
          · intro h
            obtain ⟨x, hx, hfx⟩ := h
            rcases List.mem_cons.mp hx with hx | hx
            · subst hx
              simp [BatchEntry.isTensor] at hfx
            · exact ⟨x, hx, hfx⟩
      | nonTensor =>
          simp [collate, BatchEntry.isTensor]

theorem mapLoop_ok {I M F : Type} [Inhabited I] [Inhabited M] (g : I → M → F)
    (batches : List (List (MapSample I M)))
    (h : ∀ b ∈ batches, ∀ s ∈ b,
        s.image.isTensor = true ∧ s.mask.isTensor = true) :
    Featurizer.mapLoop g batches
      = .ok ((batches.map (fun b => b.map fun s =>
          g (s.image.getD default) (s.mask.getD default))).flatten) := by
  induction batches with
  | nil => rfl
  | cons b bs ih =>
      have himg : ∀ e ∈ b.map MapSample.image, e.isTensor = true := by
        intro e he
        obtain ⟨s, hs, rfl⟩ := List.mem_map.mp he
        exact (h b (List.mem_cons_self _ _) s hs).1
      have hmsk : ∀ e ∈ b.map MapSample.mask, e.isTensor = true := by
        intro e he
        obtain ⟨s, hs, rfl⟩ := List.mem_map.mp he
        exact (h b (List.mem_cons_self _ _) s hs).2
      rw [Featurizer.mapLoop, collate_all_tensor _ himg,
        collate_all_tensor _ hmsk,
        ih (fun b' hb' => h b' (List.mem_cons_of_mem _ hb'))]
      simp only [List.map_map, List.zip_map', List.map_cons, List.flatten_cons]
      rfl

theorem mapLoop_error_iff {I M F : Type} (g : I → M → F)
    (batches : List (List (MapSample I M))) :
    (∃ e, Featurizer.mapLoop g batches = .error e)
      ↔ ∃ b ∈ batches, ∃ s ∈ b,
          s.image.isTensor = false ∨ s.mask.isTensor = false := by
  induction batches with
  | nil => simp [Featurizer.mapLoop]
  | cons b bs ih =>
      rw [Featurizer.mapLoop]
      cases himg : collate (b.map MapSample.image) with
      | none =>
          obtain ⟨e, he, hbad⟩ := (collate_none_iff _).mp himg
          obtain ⟨s, hs, rfl⟩ := List.mem_map.mp he
          simp only []
          constructor
          · intro _
            exact ⟨b, List.mem_cons_self _ _, s, hs, Or.inl hbad⟩
          · intro _
            exact ⟨"non-tensor images", rfl⟩
      | some imgs =>
          cases hmsk : collate (b.map MapSample.mask) with
          | none =>
              obtain ⟨e, he, hbad⟩ := (collate_none_iff _).mp hmsk
              obtain ⟨s, hs, rfl⟩ := List.mem_map.mp he
              simp only []
              constructor
              · intro _
                exact ⟨b, List.mem_cons_self _ _, s, hs, Or.inr hbad⟩
              · intro _
                exact ⟨"non-tensor masks", rfl⟩
          | some msks =>
              have hbgood : ∀ s ∈ b, s.image.isTensor = true
                  ∧ s.mask.isTensor = true := by
                intro s hs
                constructor
                · by_contra hbad
                  have : collate (b.map MapSample.image) = none :=
                    (collate_none_iff _).mpr
                      ⟨s.image, List.mem_map_of_mem _ hs, by
                        cases hit : s.image.isTensor
                        · rfl
                        · exact absurd hit hbad⟩
                  rw [himg] at this
                  exact Option.noConfusion this
                · by_contra hbad
                  have : collate (b.map MapSample.mask) = none :=
                    (collate_none_iff _).mpr
                      ⟨s.mask, List.mem_map_of_mem _ hs, by
                        cases hit : s.mask.isTensor
                        · rfl
                        · exact absurd hit hbad⟩
                  rw [hmsk] at this
                  exact Option.noConfusion this
              cases hrec : Featurizer.mapLoop g bs with
              | error e =>
                  simp only []
                  constructor
                  · intro _
                    obtain ⟨b', hb', hx⟩ := ih.mp ⟨e, hrec⟩
                    exact ⟨b', List.mem_cons_of_mem _ hb', hx⟩
                  · intro _
                    exact ⟨e, rfl⟩
              | ok rest =>
                  simp only []
                  constructor
                  · rintro ⟨e', he'⟩
                    exact Except.noConfusion he'
                  · rintro ⟨b', hb', s, hs, hbad⟩
                    rcases List.mem_cons.mp hb' with hb' | hb'
                    · subst hb'
                      rcases hbad with hbad | hbad
                      · rw [(hbgood s hs).1] at hbad
                        exact Bool.noConfusion hbad
                      · rw [(hbgood s hs).2] at hbad
                        exact Bool.noConfusion hbad
                    · obtain ⟨e, he⟩ := ih.mpr ⟨b', hb', s, hs, hbad⟩
                      rw [hrec] at he
                      exact Except.noConfusion he

/-- C10: for a dataset whose samples hold tensors at the image and mask
indices, `Featurizer.map` returns a dataset with one feature row per input
sample, in dataset order (assuming `forward` returns one row per image); and
it raises ValueError exactly when some batch's image or mask entry is not a
tensor. -/
theorem featurizer_map_rows_and_errors {I M F : Type} [Inhabited I]
    [Inhabited M] (g : I → M → F) (batchSize : ℕ)
    (samples : List (MapSample I M)) :
    ((∀ s ∈ samples, s.image.isTensor = true ∧ s.mask.isTensor = true) →
        Featurizer.map g batchSize samples
          = .ok (samples.map fun s =>
              g (s.image.getD default) (s.mask.getD default))
        ∧ (samples.map fun s =>
            g (s.image.getD default) (s.mask.getD default)).length
          = samples.length)
    ∧ ((∃ e, Featurizer.map g batchSize samples = .error e)
        ↔ ∃ s ∈ samples,
            s.image.isTensor = false ∨ s.mask.isTensor = false) := by
  constructor
  · intro h
    have hb : ∀ b ∈ chunk batchSize samples, ∀ s ∈ b,
        s.image.isTensor = true ∧ s.mask.isTensor = true := by
      intro b hbm s hs
      refine h s ?_
      rw [← chunk_flatten batchSize samples]
      exact List.mem_flatten.mpr ⟨b, hbm, hs⟩
    rw [Featurizer.map, mapLoop_ok g _ hb]
    exact ⟨by rw [chunk_map_flatten], by rw [List.length_map]⟩
  · rw [Featurizer.map, mapLoop_error_iff]
    constructor
    · rintro ⟨b, hbm, s, hs, hbad⟩
      refine ⟨s, ?_, hbad⟩
      rw [← chunk_flatten batchSize samples]
      exact List.mem_flatten.mpr ⟨b, hbm, hs⟩
    · rintro ⟨s, hs, hbad⟩
      rw [← chunk_flatten batchSize samples] at hs
      obtain ⟨b, hbm, hsb⟩ := List.mem_flatten.mp hs
      exact ⟨b, hbm, s, hsb, hbad⟩

theorem featurizer_map_rows_and_errors_witness :
    ((∀ s ∈ [MapSample.mk (.tensor 1) (.tensor 2),
          MapSample.mk (.tensor 3) (.tensor (4:ℕ))],
        s.image.isTensor = true ∧ s.mask.isTensor = true) →
        Featurizer.map (fun a b : ℕ => a + b) 2
            [MapSample.mk (.tensor 1) (.tensor 2),
              MapSample.mk (.tensor 3) (.tensor 4)]
          = .ok ([MapSample.mk (.tensor 1) (.tensor 2),
              MapSample.mk (.tensor 3) (.tensor (4:ℕ))].map fun s =>
                (fun a b : ℕ => a + b) (s.image.getD default)
                  (s.mask.getD default))
        ∧ ([MapSample.mk (.tensor 1) (.tensor 2),
              MapSample.mk (.tensor 3) (.tensor (4:ℕ))].map fun s =>
                (fun a b : ℕ => a + b) (s.image.getD default)
                  (s.mask.getD default)).length
          = List.length [MapSample.mk (.tensor 1) (.tensor 2),
              MapSample.mk (.tensor 3) (.tensor (4:ℕ))])
    ∧ ((∃ e, Featurizer.map (fun a b : ℕ => a + b) 2
            [MapSample.mk (.tensor 1) (.tensor 2),
              MapSample.mk (.tensor 3) (.tensor 4)] = .error e)
        ↔ ∃ s ∈ [MapSample.mk (.tensor 1) (.tensor 2),
              MapSample.mk (.tensor 3) (.tensor (4:ℕ))],
            s.image.isTensor = false ∨ s.mask.isTensor = false) :=
  featurizer_map_rows_and_errors (fun a b : ℕ => a + b) 2
    [MapSample.mk (.tensor 1) (.tensor 2), MapSample.mk (.tensor 3) (.tensor 4)]

/-! ## LanguageModel.fit (lv/models/lms.py, lines 221-257)

The body of one epoch (SGD steps, LSTM forward, loss computation) is numeric
library code; it is abstracted as the sequence of per-epoch parameter states
`params` (`params 0` the initial state, `params e` the state after epoch `e`)
and the list `losses` of per-epoch validation losses, one entry per potential
epoch, so `losses.length` is `max_epochs`. -/

/-- Modelled from the spec: `lv.utils.training.EarlyStopping` is imported by
lv/models/lms.py but is not among the sources.  Per the fit docstring —
"Stop training if validation loss does not improve for this many epochs" —
the callback tracks the best value seen so far, counts consecutive
non-improving calls, and signals stopping once that count reaches
`patience`. -/
structure EarlyStopping where
  patience : ℕ
  best : Option ℚ
  numBad : ℕ

/-- One call `stopper(val_loss)`: update the state, return the stop signal. -/
def EarlyStopping.step (s : EarlyStopping) (v : ℚ) : EarlyStopping × Bool :=
  let improved : Bool := match s.best with
    | none => true
    | some b => decide (v < b)
  let s' := if improved then { s with best := some v, numBad := 0 }
            else { s with numBad := s.numBad + 1 }
  (s', decide (s.patience ≤ s'.numBad))

/-- The epoch loop of `LanguageModel.fit`.  `best = self.state_dict()`
(lines 226 and 257) stores references into the live parameter storage, and
`optimizer.step()` updates the parameters in place, so at every point of the
loop `best` denotes the current parameters; `self.load_state_dict(best)` at
line 253 copies each parameter tensor onto itself and changes nothing.  The
loop therefore ends with the parameters of the last epoch run, in the
early-stop case as much as in the exhausted case.  Returns
(epochs run, final parameters, stopped early). -/
def fitLoop {P : Type} (params : ℕ → P) :
    EarlyStopping → ℕ → List ℚ → ℕ × P × Bool
  | _, e, [] => (e, params e, false)
  | s, e, v :: rest =>
      match s.step v with
      | (s', stop) =>
          if stop then (e + 1, params (e + 1), true)
          else fitLoop params s' (e + 1) rest

/-- LanguageModel.fit: fresh stopper, then the epoch loop over at most
`max_epochs` epochs. -/
def LanguageModel.fit {P : Type} (params : ℕ → P) (patience : ℕ)
    (losses : List ℚ) : ℕ × P × Bool :=
  fitLoop params ⟨patience, none, 0⟩ 0 losses

theorem fitLoop_returns_current {P : Type} (params : ℕ → P) :
    ∀ (rest : List ℚ) (s : EarlyStopping) (e : ℕ),
      (fitLoop params s e rest).2.1 = params (fitLoop params s e rest).1 := by
  intro rest
  induction rest with
  | nil => intro s e; rfl
  | cons v rest ih =>
      intro s e
      rw [fitLoop]
      cases hstep : s.step v with
      | mk s' stop =>
          simp only []
          cases stop with
          | false => simpa using ih s' (e + 1)
          | true => rfl

/-- C6 (code_bug): the claimed restoration of the best-epoch parameters does
not happen in the code: `best = self.state_dict()` aliases the live
parameter storage that the optimizer mutates in place, so
`load_state_dict(best)` is a no-op and `fit` always ends with the
parameters of the last epoch run.  Concretely, with patience 1 and
validation losses [1, 2], fit stops early after epoch 2 and keeps
epoch 2's parameters, although epoch 1's validation loss is strictly
better. -/
theorem lm_fit_keeps_last_epoch :
    (∀ (P : Type) (params : ℕ → P) (patience : ℕ) (losses : List ℚ),
        (LanguageModel.fit params patience losses).2.1
          = params (LanguageModel.fit params patience losses).1)
    ∧ LanguageModel.fit (fun e => e) 1 [1, 2] = (2, 2, true)
    ∧ List.getD [(1:ℚ), 2] 0 0 < List.getD [(1:ℚ), 2] 1 0 := by
  refine ⟨?_, rfl, by norm_num⟩
  intro P params patience losses
  exact fitLoop_returns_current params losses ⟨patience, none, 0⟩ 0
